import Mathlib

/-!
Verification of the chunking pipeline in `pdf_splitter.py`.

Strings are modelled as `List Char`.  The Python regular-expression
operations used by the program are embedded as structurally recursive
scanners:

* `clean_text`    mirrors `re.sub(r'\s+', ' ', text).strip()`;
* `pySplitSentences` mirrors `re.split(r'(?<=[.!?])\s+', text)`
  (a maximal whitespace run whose first character is immediately
  preceded by `.`, `!` or `?` is a separator; the separator is
  consumed; an input with no separator, including the empty input,
  yields one fragment, exactly as `re.split` does);
* `split_text_into_sections`, `save_sections_to_files` and
  `extract_text_from_pdf` mirror the corresponding Python functions.
-/

namespace PdfSplitter

/-- Whitespace as matched by Python's `\s` on ASCII text:
space, tab, newline, carriage return, vertical tab, form feed. -/
def isSpaceChar (c : Char) : Bool :=
  c = ' ' || c = '\t' || c = '\n' || c = '\r' || c = '\x0b' || c = '\x0c'

/-- The sentence-ending punctuation of the lookbehind `(?<=[.!?])`. -/
def isPunctChar (c : Char) : Bool :=
  c = '.' || c = '!' || c = '?'

/-- Lookbehind on an optional previous character: at the very start of
the string there is no previous character and the lookbehind fails. -/
def isPunctOpt : Option Char → Bool
  | some c => isPunctChar c
  | none => false

/-- Scanner for `re.sub(r'\s+', ' ', text)`: every maximal run of
whitespace becomes a single space.  The boolean records whether the
scanner is currently inside a whitespace run. -/
def collapseGo : Bool → List Char → List Char
  | _, [] => []
  | inRun, c :: cs =>
    if isSpaceChar c then
      if inRun then collapseGo true cs else ' ' :: collapseGo true cs
    else c :: collapseGo false cs

/-- Embedding of `re.sub(r'\s+', ' ', text)`. -/
def collapseWS (t : List Char) : List Char := collapseGo false t

/-- Embedding of Python's `str.strip()`: drop whitespace from both ends. -/
def pyStrip (t : List Char) : List Char :=
  ((t.dropWhile isSpaceChar).reverse.dropWhile isSpaceChar).reverse

/-- Embedding of `clean_text` (pdf_splitter.py lines 89-95):
collapse whitespace runs to single spaces, then strip the ends. -/
def clean_text (t : List Char) : List Char := pyStrip (collapseWS t)

/-- Scanner for `re.split(r'(?<=[.!?])\s+', text)`.
`acc` holds the current fragment reversed; the boolean is true while
the scanner is consuming a separator's whitespace run. -/
def sentGo : List Char → Bool → List Char → List (List Char)
  | acc, false, [] => [acc.reverse]
  | _, true, [] => [[]]
  | acc, false, c :: cs =>
    if isSpaceChar c && isPunctOpt acc.head? then
      acc.reverse :: sentGo [] true cs
    else
      sentGo (c :: acc) false cs
  | _, true, c :: cs =>
    if isSpaceChar c then sentGo [] true cs else sentGo [c] false cs

/-- Embedding of `re.split(r'(?<=[.!?])\s+', text)` (pdf_splitter.py
line 108).  On the empty string this returns `[[]]`, as `re.split`
returns `[""]`. -/
def pySplitSentences (t : List Char) : List (List Char) := sentGo [] false t

/-- Sentence sequence of the spec's data model: per the spec, the empty
text has zero sentences; a non-empty text is split by the code's rule.
This is the comparison point for the coverage claim. -/
def sentenceSeq (t : List Char) : List (List Char) :=
  if t = [] then [] else pySplitSentences t

/-- Joining a list of fragments with single spaces, as the accumulation
`current_section += " " + sentence` produces. -/
def joinWS : List (List Char) → List Char
  | [] => []
  | [s] => s
  | s :: s' :: rest => s ++ ' ' :: joinWS (s' :: rest)

/-- The hardcoded hard cap of `split_text_into_sections`
(pdf_splitter.py line 106): `max_chars = 4096`. -/
def max_chars : Nat := 4096

/-- One iteration of the sentence loop of `split_text_into_sections`
(pdf_splitter.py lines 110-134); the state is the pair
`(sections, current_section)`. -/
def sectionStep (T : Nat) (st : List (List Char) × List Char)
    (sentence : List Char) : List (List Char) × List Char :=
  let sections := st.1
  let current := st.2
  let potential := current.length + sentence.length +
    (if current = [] then 0 else 1)
  if potential > T ∧ current ≠ [] then
    if potential ≤ max_chars then
      (sections ++
        [pyStrip (if current = [] then sentence else current ++ ' ' :: sentence)],
       [])
    else
      (sections ++ [pyStrip current], sentence)
  else
    (sections, if current = [] then sentence else current ++ ' ' :: sentence)

/-- Embedding of `split_text_into_sections` (pdf_splitter.py lines
98-140): split into sentences, fold the accumulation loop, then flush a
non-empty remaining buffer. -/
def split_text_into_sections (t : List Char) (chars_per_section : Nat := 4090) :
    List (List Char) :=
  let sentences := pySplitSentences t
  let res := sentences.foldl (sectionStep chars_per_section) ([], [])
  if res.2 = [] then res.1 else res.1 ++ [pyStrip res.2]

/-- Modelled from the spec: the chunker as the spec describes it, with
an implicit hard cap of `T + 6` instead of the code's fixed
`max_chars = 4096`.  Used to compare the spec's claim with the code. -/
def sectionStepSpecCap (T : Nat) (st : List (List Char) × List Char)
    (sentence : List Char) : List (List Char) × List Char :=
  let sections := st.1
  let current := st.2
  let potential := current.length + sentence.length +
    (if current = [] then 0 else 1)
  if potential > T ∧ current ≠ [] then
    if potential ≤ T + 6 then
      (sections ++
        [pyStrip (if current = [] then sentence else current ++ ' ' :: sentence)],
       [])
    else
      (sections ++ [pyStrip current], sentence)
  else
    (sections, if current = [] then sentence else current ++ ' ' :: sentence)

/-- Modelled from the spec: `split_text_into_sections` with the spec's
`T + 6` hard cap. -/
def split_sections_spec_cap (t : List Char) (T : Nat) : List (List Char) :=
  let sentences := pySplitSentences t
  let res := sentences.foldl (sectionStepSpecCap T) ([], [])
  if res.2 = [] then res.1 else res.1 ++ [pyStrip res.2]

/-- Decimal digit characters, as produced by Python's `str` on a
natural number below ten. -/
def digitChar : Nat → Char
  | 0 => '0' | 1 => '1' | 2 => '2' | 3 => '3' | 4 => '4'
  | 5 => '5' | 6 => '6' | 7 => '7' | 8 => '8' | _ => '9'

/-- Fuelled decimal representation; with fuel above `n` it computes the
digits of `str(n)`. -/
def decReprAux : Nat → Nat → List Char
  | 0, _ => []
  | fuel + 1, n =>
    if n < 10 then [digitChar n]
    else decReprAux fuel (n / 10) ++ [digitChar (n % 10)]

/-- Embedding of Python's `str(n)` for a natural number. -/
def decRepr (n : Nat) : List Char := decReprAux (n + 1) n

/-- Embedding of Python's `str.zfill(width)` on a digit string:
left-pad with `'0'` up to `width`. -/
def zfill (width : Nat) (s : List Char) : List Char :=
  List.replicate (width - s.length) '0' ++ s

/-- Decimal value denoted by a digit string. -/
def parseDec (s : List Char) : Nat :=
  s.foldl (fun a c => 10 * a + (c.toNat - 48)) 0

/-- The literal `"_section_"` of the output filename pattern. -/
def sectionTag : List Char := "_section_".data

/-- The literal `".txt"` of the output filename pattern. -/
def txtExt : List Char := ".txt".data

/-- Embedding of `save_sections_to_files` (pdf_splitter.py lines
143-158): the ordered list of `(filename, contents)` pairs written, one
per section, with a 1-based index zero-padded to the width of
`str(len(sections))`. -/
def save_sections_to_files (sections : List (List Char))
    (base_name : List Char) : List (List Char × List Char) :=
  let digits := (decRepr sections.length).length
  (List.range sections.length).map
    (fun i =>
      (base_name ++ sectionTag ++ zfill digits (decRepr (i + 1)) ++ txtExt,
       sections.getD i []))

/-- Errors `extract_text_from_pdf` can raise. -/
inductive PdfError
  | fileNotFound
  | noBackend
deriving DecidableEq

/-- The two extraction backends. -/
inductive PdfBackend
  | pdfplumberBackend
  | pypdf2Backend
deriving DecidableEq

/-- Embedding of `extract_text_from_pdf` (pdf_splitter.py lines 76-86).
File existence and module availability are abstracted as booleans; the
result is the backend that runs, or the error raised. -/
def extract_text_from_pdf (path_exists pdfplumber_available pypdf2_available :
    Bool) : Except PdfError PdfBackend :=
  if path_exists = false then Except.error PdfError.fileNotFound
  else if pdfplumber_available then Except.ok PdfBackend.pdfplumberBackend
  else if pypdf2_available then Except.ok PdfBackend.pypdf2Backend
  else Except.error PdfError.noBackend

/-- No two adjacent whitespace characters. -/
def noAdjWS (a b : Char) : Prop :=
  ¬(isSpaceChar a = true ∧ isSpaceChar b = true)

/-- Shape of normalized text: every whitespace character is a plain
space, no two whitespace characters are adjacent, and neither end is
whitespace. -/
def NF (t : List Char) : Prop :=
  (∀ c ∈ t, isSpaceChar c = true → c = ' ') ∧
  List.Chain' noAdjWS t ∧
  (∀ c, t.head? = some c → isSpaceChar c = false) ∧
  (∀ c, t.getLast? = some c → isSpaceChar c = false)

lemma collapseGo_mem_space {t : List Char} {b : Bool} {c : Char}
    (h : c ∈ collapseGo b t) (hw : isSpaceChar c = true) : c = ' ' := by
  induction t generalizing b with
  | nil => simp [collapseGo] at h
  | cons c' cs ih =>
    by_cases hc' : isSpaceChar c' = true
    · cases b with
      | true =>
        simp only [collapseGo, hc', if_pos, if_true] at h
        exact ih h
      | false =>
        simp only [collapseGo, hc', if_pos, if_false] at h
        rcases List.mem_cons.mp h with h | h
        · exact h
        · exact ih h
    · simp only [collapseGo, hc', if_neg, Bool.not_eq_true] at h
      rcases List.mem_cons.mp h with h | h
      · rw [h] at hw
        rw [hw] at hc'
        exact absurd rfl hc'
      · exact ih h

lemma collapseGo_head_true {t : List Char} {c : Char}
    (h : (collapseGo true t).head? = some c) : isSpaceChar c = false := by
  induction t with
  | nil => simp [collapseGo] at h
  | cons c' cs ih =>
    by_cases hc' : isSpaceChar c' = true
    · simp only [collapseGo, hc', if_true] at h
      exact ih h
    · simp only [collapseGo, hc', Bool.not_eq_true, if_neg] at h
      simp only [List.head?_cons, Option.some.injEq] at h
      rw [← h]
      exact Bool.not_eq_true _ ▸ hc'

lemma collapseGo_chain' (t : List Char) (b : Bool) :
    List.Chain' noAdjWS (collapseGo b t) := by
  induction t generalizing b with
  | nil => simp [collapseGo]
  | cons c' cs ih =>
    by_cases hc' : isSpaceChar c' = true
    · cases b with
      | true => simpa [collapseGo, hc'] using ih true
      | false =>
        simp only [collapseGo, hc', if_true]
        refine List.chain'_cons'.mpr ⟨?_, ih true⟩
        intro y hy
        have : isSpaceChar y = false := collapseGo_head_true hy
        simp [noAdjWS, this]
    · simp only [collapseGo, hc', if_neg, Bool.not_eq_true]
      refine List.chain'_cons'.mpr ⟨?_, ih false⟩
      intro y _
      simp [noAdjWS, Bool.not_eq_true _ ▸ hc']

lemma dropWhile_head_not {l : List Char} {a : Char}
    (h : (l.dropWhile isSpaceChar).head? = some a) : isSpaceChar a = false := by
  induction l with
  | nil => simp [List.dropWhile] at h
  | cons c cs ih =>
    by_cases hc : isSpaceChar c = true
    · simp only [List.dropWhile, hc] at h
      exact ih h
    · simp only [List.dropWhile, hc] at h
      simp only [Bool.not_eq_true] at hc
      simp only [List.head?_cons, Option.some.injEq] at h
      rw [← h]
      exact hc

lemma mem_pyStrip {t : List Char} {c : Char} (h : c ∈ pyStrip t) : c ∈ t := by
  unfold pyStrip at h
  rw [List.mem_reverse] at h
  have h1 := (List.dropWhile_sublist _).mem h
  rw [List.mem_reverse] at h1
  exact (List.dropWhile_sublist _).mem h1

lemma noAdjWS_flip {a b : Char} (h : noAdjWS a b) : noAdjWS b a := by
  unfold noAdjWS at h ⊢
  exact fun hc => h ⟨hc.2, hc.1⟩

lemma chain'_noAdjWS_reverse {l : List Char} (h : List.Chain' noAdjWS l) :
    List.Chain' noAdjWS l.reverse := by
  exact List.chain'_reverse.mpr (h.imp fun _ _ hab => noAdjWS_flip hab)

lemma chain'_dropWhile {l : List Char} {p : Char → Bool}
    (h : List.Chain' noAdjWS l) : List.Chain' noAdjWS (l.dropWhile p) := by
  have hsplit : l.takeWhile p ++ l.dropWhile p = l :=
    List.takeWhile_append_dropWhile _ _
  rw [← hsplit] at h
  exact (List.chain'_append.mp h).2.1

lemma chain'_pyStrip {t : List Char} (h : List.Chain' noAdjWS t) :
    List.Chain' noAdjWS (pyStrip t) := by
  unfold pyStrip
  exact chain'_noAdjWS_reverse (chain'_dropWhile (chain'_noAdjWS_reverse
    (chain'_dropWhile h)))

lemma pyStrip_head_not {t : List Char} {c : Char}
    (h : (pyStrip t).head? = some c) : isSpaceChar c = false := by
  unfold pyStrip at h
  rw [List.head?_reverse] at h
  set w := t.dropWhile isSpaceChar with hw
  set x := w.reverse.dropWhile isSpaceChar with hx
  have hxw : w.reverse.takeWhile isSpaceChar ++ x = w.reverse :=
    List.takeWhile_append_dropWhile _ _
  have hne : x ≠ [] := by
    intro hnil
    rw [hnil] at h
    simp at h
  have hlast : w.reverse.getLast? = some c := by
    rw [← hxw, List.getLast?_append, h]
    rfl
  rw [List.getLast?_reverse] at hlast
  exact dropWhile_head_not hlast

lemma pyStrip_getLast_not {t : List Char} {c : Char}
    (h : (pyStrip t).getLast? = some c) : isSpaceChar c = false := by
  unfold pyStrip at h
  rw [List.getLast?_reverse] at h
  exact dropWhile_head_not h

/-- The output of `clean_text` is in normalized form. -/
lemma NF_clean_text (t : List Char) : NF (clean_text t) := by
  refine ⟨?_, ?_, ?_, ?_⟩
  · intro c hc hw
    exact collapseGo_mem_space (mem_pyStrip hc) hw
  · exact chain'_pyStrip (collapseGo_chain' t false)
  · intro c hc
    exact pyStrip_head_not hc
  · intro c hc
    exact pyStrip_getLast_not hc

lemma collapseGo_eq_self (t : List Char)
    (hmem : ∀ c ∈ t, isSpaceChar c = true → c = ' ')
    (hch : List.Chain' noAdjWS t) :
    collapseGo false t = t ∧
      ((∀ c, t.head? = some c → isSpaceChar c = false) →
        collapseGo true t = t) := by
  induction t with
  | nil => exact ⟨rfl, fun _ => rfl⟩
  | cons c cs ih =>
    have hpair := (List.chain'_cons'.mp hch).1
    have htail := (List.chain'_cons'.mp hch).2
    have hmem' : ∀ c' ∈ cs, isSpaceChar c' = true → c' = ' ' :=
      fun c' hc' => hmem c' (List.mem_cons_of_mem _ hc')
    have ih' := ih hmem' htail
    by_cases hc : isSpaceChar c = true
    · have hcsp : c = ' ' := hmem c (List.mem_cons_self c cs) hc
      have hcs_head : ∀ c', cs.head? = some c' → isSpaceChar c' = false := by
        intro c' hc'
        have := hpair c' hc'
        unfold noAdjWS at this
        by_contra hcontra
        rw [Bool.not_eq_false] at hcontra
        exact this ⟨hc, hcontra⟩
      constructor
      · simp only [collapseGo, hc, if_true, Bool.false_eq_true, if_false]
        rw [ih'.2 hcs_head, hcsp]
      · intro hhead
        have := hhead c rfl
        rw [hc] at this
        exact absurd this (by simp)
    · have hcf : isSpaceChar c = false := Bool.not_eq_true _ ▸ hc
      constructor
      · simp only [collapseGo, hc, if_neg, Bool.not_eq_true]
        rw [ih'.1]
      · intro _
        simp only [collapseGo, hc, if_neg, Bool.not_eq_true]
        rw [ih'.1]

lemma dropWhile_eq_self_of_head {l : List Char}
    (h : ∀ c, l.head? = some c → isSpaceChar c = false) :
    l.dropWhile isSpaceChar = l := by
  cases l with
  | nil => rfl
  | cons c cs =>
    have := h c rfl
    simp [List.dropWhile, this]

lemma pyStrip_eq_self (t : List Char)
    (hh : ∀ c, t.head? = some c → isSpaceChar c = false)
    (hl : ∀ c, t.getLast? = some c → isSpaceChar c = false) :
    pyStrip t = t := by
  unfold pyStrip
  rw [dropWhile_eq_self_of_head hh]
  have : ∀ c, t.reverse.head? = some c → isSpaceChar c = false := by
    intro c hc
    rw [List.head?_reverse] at hc
    exact hl c hc
  rw [dropWhile_eq_self_of_head this, List.reverse_reverse]

/-- Normalized text is a fixed point of `clean_text`. -/
lemma clean_text_eq_self {t : List Char} (h : NF t) : clean_text t = t := by
  obtain ⟨h1, h2, h3, h4⟩ := h
  unfold clean_text collapseWS
  rw [(collapseGo_eq_self t h1 h2).1]
  exact pyStrip_eq_self t h3 h4

/-- Claim C6: `clean_text` is idempotent — normalizing
already-normalized text returns it unchanged. -/
theorem claim_C6_clean_text_idempotent (s : List Char) :
    clean_text (clean_text s) = clean_text s :=
  clean_text_eq_self (NF_clean_text s)

/-- Claim C9: the result of `clean_text` contains no newline, every
whitespace character in it is a single space with no two adjacent, and
neither end is whitespace. -/
theorem claim_C9_clean_text_no_newline (s : List Char) :
    '\n' ∉ clean_text s ∧
    (∀ c ∈ clean_text s, isSpaceChar c = true → c = ' ') ∧
    List.Chain' noAdjWS (clean_text s) ∧
    (∀ c, (clean_text s).head? = some c → isSpaceChar c = false) ∧
    (∀ c, (clean_text s).getLast? = some c → isSpaceChar c = false) := by
  obtain ⟨h1, h2, h3, h4⟩ := NF_clean_text s
  refine ⟨?_, h1, h2, h3, h4⟩
  intro hmem
  have := h1 '\n' hmem (by decide)
  exact absurd this (by decide)

/-- Witness for claim C9 at a concrete input. -/
theorem claim_C9_witness :
    '\n' ∉ clean_text ("a" ++ "\n" ++ "b").data ∧
    (∀ c ∈ clean_text ("a" ++ "\n" ++ "b").data, isSpaceChar c = true → c = ' ') ∧
    List.Chain' noAdjWS (clean_text ("a" ++ "\n" ++ "b").data) ∧
    (∀ c, (clean_text ("a" ++ "\n" ++ "b").data).head? = some c →
      isSpaceChar c = false) ∧
    (∀ c, (clean_text ("a" ++ "\n" ++ "b").data).getLast? = some c →
      isSpaceChar c = false) :=
  claim_C9_clean_text_no_newline _

lemma decReprAux_congr : ∀ f g n, n < f → n < g → decReprAux f n = decReprAux g n := by
  intro f
  induction f with
  | zero => intro g n hf; omega
  | succ f ih =>
    intro g n hf hg
    cases g with
    | zero => omega
    | succ g =>
      simp only [decReprAux]
      by_cases h10 : n < 10
      · simp [h10]
      · have hdiv : n / 10 < n := Nat.div_lt_self (by omega) (by omega)
        simp only [h10, if_false]
        rw [ih g (n / 10) (by omega) (by omega)]

lemma decRepr_eq (n : Nat) :
    decRepr n = if n < 10 then [digitChar n]
      else decRepr (n / 10) ++ [digitChar (n % 10)] := by
  by_cases h10 : n < 10
  · simp [decRepr, decReprAux, h10]
  · have hdiv : n / 10 < n := Nat.div_lt_self (by omega) (by omega)
    have hstep : decRepr n = decReprAux n (n / 10) ++ [digitChar (n % 10)] := by
      simp only [decRepr, decReprAux]
      rw [if_neg h10]
    rw [hstep, if_neg h10,
      decReprAux_congr n (n / 10 + 1) (n / 10) (by omega) (by omega)]
    rfl

lemma decRepr_length_pos (n : Nat) : 0 < (decRepr n).length := by
  rw [decRepr_eq]
  split <;> simp

lemma decRepr_length_mono_aux :
    ∀ f m n, n < f → m ≤ n → (decRepr m).length ≤ (decRepr n).length := by
  intro f
  induction f with
  | zero => intro m n hf; omega
  | succ f ih =>
    intro m n hf hmn
    by_cases hn : n < 10
    · rw [decRepr_eq m, decRepr_eq n]
      simp [hn, show m < 10 by omega]
    · by_cases hm : m < 10
      · rw [decRepr_eq m, decRepr_eq n]
        simp only [hm, if_true, hn, if_false, List.length_append,
          List.length_cons, List.length_singleton]
        have := decRepr_length_pos (n / 10)
        omega
      · rw [decRepr_eq m, decRepr_eq n]
        simp only [hm, hn, if_false, List.length_append, List.length_singleton]
        have hdiv : n / 10 < n := Nat.div_lt_self (by omega) (by omega)
        have := ih (m / 10) (n / 10) (by omega) (Nat.div_le_div_right hmn)
        omega

lemma decRepr_length_mono {m n : Nat} (h : m ≤ n) :
    (decRepr m).length ≤ (decRepr n).length :=
  decRepr_length_mono_aux (n + 1) m n (by omega) h

lemma digitChar_toNat {n : Nat} (h : n < 10) : (digitChar n).toNat - 48 = n := by
  interval_cases n <;> decide

lemma digitChar_isDigit {n : Nat} (h : n < 10) : (digitChar n).isDigit = true := by
  interval_cases n <;> decide

lemma decRepr_foldl_aux :
    ∀ f n, n < f → ∀ a, List.foldl (fun a c => 10 * a + (c.toNat - 48)) a
      (decRepr n) = a * 10 ^ (decRepr n).length + n := by
  intro f
  induction f with
  | zero => intro n hf; omega
  | succ f ih =>
    intro n hf a
    by_cases h10 : n < 10
    · rw [decRepr_eq n]
      simp only [h10, if_true, List.foldl_cons, List.foldl_nil,
        List.length_singleton, pow_one, digitChar_toNat h10]
      ring
    · rw [decRepr_eq n]
      simp only [h10, if_false, List.foldl_append, List.foldl_cons,
        List.foldl_nil, List.length_append, List.length_singleton]
      have hdiv : n / 10 < n := Nat.div_lt_self (by omega) (by omega)
      rw [ih (n / 10) (by omega) a, digitChar_toNat (Nat.mod_lt n (by omega))]
      have : 10 * (a * 10 ^ (decRepr (n / 10)).length + n / 10) + n % 10 =
          a * 10 ^ ((decRepr (n / 10)).length + 1) + (10 * (n / 10) + n % 10) := by
        ring
      rw [this, Nat.div_add_mod]

lemma parseDec_decRepr (n : Nat) : parseDec (decRepr n) = n := by
  unfold parseDec
  rw [decRepr_foldl_aux (n + 1) n (by omega) 0]
  simp

lemma parseDec_zeros : ∀ k, List.foldl (fun a c => 10 * a + (c.toNat - 48)) 0
    (List.replicate k '0') = 0 := by
  intro k
  induction k with
  | zero => rfl
  | succ k ih => simpa [List.replicate_succ] using ih

lemma parseDec_zfill (w : Nat) (l : List Char) :
    parseDec (zfill w l) = parseDec l := by
  unfold parseDec zfill
  rw [List.foldl_append, parseDec_zeros]

lemma zfill_length {w : Nat} {l : List Char} (h : l.length ≤ w) :
    (zfill w l).length = w := by
  simp only [zfill, List.length_append, List.length_replicate]
  omega

lemma decRepr_digits_aux : ∀ f n, n < f → ∀ c ∈ decRepr n, c.isDigit = true := by
  intro f
  induction f with
  | zero => intro n hf; omega
  | succ f ih =>
    intro n hf c hc
    by_cases h10 : n < 10
    · rw [decRepr_eq n] at hc
      simp only [h10, if_true, List.mem_singleton] at hc
      rw [hc]
      exact digitChar_isDigit h10
    · rw [decRepr_eq n] at hc
      simp only [h10, if_false, List.mem_append, List.mem_singleton] at hc
      rcases hc with hc | hc
      · have hdiv : n / 10 < n := Nat.div_lt_self (by omega) (by omega)
        exact ih (n / 10) (by omega) c hc
      · rw [hc]
        exact digitChar_isDigit (Nat.mod_lt n (by omega))

lemma zfill_digits {w : Nat} {l : List Char}
    (h : ∀ c ∈ l, c.isDigit = true) :
    ∀ c ∈ zfill w l, c.isDigit = true := by
  intro c hc
  simp only [zfill, List.mem_append, List.mem_replicate] at hc
  rcases hc with hc | hc
  · rw [hc.2]
    decide
  · exact h c hc

/-- Claim C7: for `N` chunks the writer produces exactly `N` files; the
`i`-th (0-based) filename is `base_name ++ "_section_" ++ pad ++ ".txt"`
where `pad` consists of digits only, has exactly `len(str(N))`
characters, and denotes the 1-based index `i + 1`; the indices hence
take every value `1..N` exactly once. -/
theorem claim_C7_filenames (sections : List (List Char)) (base_name : List Char) :
    (save_sections_to_files sections base_name).length = sections.length ∧
    ∀ i (h : i < (save_sections_to_files sections base_name).length),
      ((save_sections_to_files sections base_name).get ⟨i, h⟩).1 =
        base_name ++ sectionTag ++
          zfill (decRepr sections.length).length (decRepr (i + 1)) ++ txtExt ∧
      (zfill (decRepr sections.length).length (decRepr (i + 1))).length =
        (decRepr sections.length).length ∧
      (∀ c ∈ zfill (decRepr sections.length).length (decRepr (i + 1)),
        c.isDigit = true) ∧
      parseDec (zfill (decRepr sections.length).length (decRepr (i + 1))) =
        i + 1 ∧
      1 ≤ i + 1 ∧ i + 1 ≤ sections.length := by
  have hlen : (save_sections_to_files sections base_name).length =
      sections.length := by
    simp [save_sections_to_files]
  refine ⟨hlen, ?_⟩
  intro i h
  have hi : i < sections.length := by omega
  refine ⟨?_, ?_, ?_, ?_, ?_, ?_⟩
  · rw [List.get_eq_getElem]
    simp only [save_sections_to_files]
    rw [List.getElem_map, List.getElem_range]
  · exact zfill_length (decRepr_length_mono (by omega))
  · exact zfill_digits (decRepr_digits_aux (i + 2) (i + 1) (by omega))
  · rw [parseDec_zfill, parseDec_decRepr]
  · omega
  · omega

/-- Concrete list of sections used for the claim C7 witness. -/
def secW : List (List Char) := [['a'], ['b'], ['c']]

/-- Concrete base name used for the claim C7 witness. -/
def baseW : List Char := "bk".data

/-- Witness for claim C7 at three sections and index 2. -/
theorem claim_C7_witness :
    2 < (save_sections_to_files secW baseW).length ∧
    parseDec (zfill (decRepr secW.length).length (decRepr (2 + 1))) = 2 + 1 :=
  ⟨by decide, ((claim_C7_filenames secW baseW).2 2 (by decide)).2.2.2.1⟩

/-- Claim C8: a missing source path yields the file-not-found error
whatever the backend availability flags are (the existence check comes
first), and for an existing path the no-backend error is raised exactly
when neither backend is importable. -/
theorem claim_C8_extract_errors :
    (∀ b1 b2 : Bool, extract_text_from_pdf false b1 b2 =
      Except.error PdfError.fileNotFound) ∧
    (∀ b1 b2 : Bool, (extract_text_from_pdf true b1 b2 =
      Except.error PdfError.noBackend) ↔ (b1 = false ∧ b2 = false)) := by
  constructor
  · intro b1 b2
    rfl
  · intro b1 b2
    cases b1 <;> cases b2 <;> simp [extract_text_from_pdf]

/-- Input refuting the spec's `T + 6` hard cap: two sentences of
lengths 3 and 10, so the prospective chunk length is 14. -/
def cexText : List Char := "aa. bbbbbbbbb.".data

/-- Counterexample for claim C3: with soft target `T = 5` the code
accepts a prospective length of 14 (≤ 4096) and emits one chunk, while
the spec's `T + 6 = 11` cap would defer the second sentence and emit
two chunks. -/
theorem claim_C3_counterexample :
    split_text_into_sections cexText 5 ≠ split_sections_spec_cap cexText 5 := by
  decide

/-- Claim C3 amended: the hard cap is the fixed constant
`max_chars = 4096`, independent of the soft target: when the buffer is
non-empty and the prospective length exceeds `T`, the sentence is
appended (closing the chunk) exactly when the prospective length is at
most 4096, and otherwise the buffer is emitted without it. -/
theorem claim_C3_fixed_cap (T : Nat) (sections : List (List Char))
    (current sentence : List Char) (hcur : current ≠ []) (hsent : sentence ≠ [])
    (hpot : current.length + sentence.length + 1 > T) :
    ((sectionStep T (sections, current) sentence =
      (sections ++ [pyStrip (current ++ ' ' :: sentence)], [])) ↔
      current.length + sentence.length + 1 ≤ max_chars) ∧
    (max_chars < current.length + sentence.length + 1 →
      sectionStep T (sections, current) sentence =
        (sections ++ [pyStrip current], sentence)) := by
  have hred : sectionStep T (sections, current) sentence =
      if current.length + sentence.length + 1 ≤ max_chars then
        (sections ++ [pyStrip (current ++ ' ' :: sentence)], [])
      else (sections ++ [pyStrip current], sentence) := by
    simp only [sectionStep, hcur, if_false, ite_false, ne_eq,
      not_false_eq_true, and_true]
    rw [if_pos hpot]
  by_cases hle : current.length + sentence.length + 1 ≤ max_chars
  · rw [hred, if_pos hle]
    exact ⟨⟨fun _ => hle, fun _ => rfl⟩, fun hcontra => by omega⟩
  · rw [hred, if_neg hle]
    constructor
    · constructor
      · intro heq
        have := congrArg Prod.snd heq
        simp only at this
        exact absurd this hsent
      · intro h
        exact absurd h hle
    · intro _
      rfl

/-- Buffer used for the claim C3 witness. -/
def curW : List Char := "aa.".data

/-- Sentence used for the claim C3 witness. -/
def sentW : List Char := "bbbbbbbbb.".data

/-- Witness for the amended claim C3 at `T = 5`. -/
theorem claim_C3_witness :
    (curW ≠ [] ∧ sentW ≠ [] ∧ curW.length + sentW.length + 1 > 5) ∧
    ((sectionStep 5 ([], curW) sentW =
      ([pyStrip (curW ++ ' ' :: sentW)], []) ↔
      curW.length + sentW.length + 1 ≤ max_chars)) :=
  ⟨⟨by decide, by decide, by decide⟩,
    by
      have h := (claim_C3_fixed_cap 5 [] curW sentW (by decide) (by decide)
        (by decide)).1
      simpa using h⟩

/-- The spec's C4 scenario input. -/
def textC4 : List Char := "A. B. C.".data

/-- The first chunk the spec's scenario expects. -/
def chunkC4a : List Char := "A. B.".data

/-- The second chunk the spec's scenario expects. -/
def chunkC4b : List Char := "C.".data

/-- Counterexample for claim C4: on `"A. B. C."` with
`chars_per_section = 5` the code does not return the two chunks
`"A. B."` and `"C."` the spec's scenario expects. -/
theorem claim_C4_counterexample :
    split_text_into_sections textC4 5 ≠ [chunkC4a, chunkC4b] := by decide

/-- Claim C4 amended: on `"A. B. C."` with `chars_per_section = 5` the
code returns the single chunk `"A. B. C."`, because the hard cap is the
fixed 4096, not `T + 6`: the prospective length 8 passes the 4096 test
and the third sentence completes the first (and only) chunk. -/
theorem claim_C4_single_chunk :
    split_text_into_sections textC4 5 = [textC4] := by decide

/-- Absence of a sentence boundary between two adjacent characters:
not (punctuation followed by whitespace). -/
def noBreakR (a b : Char) : Prop :=
  ¬(isPunctChar a = true ∧ isSpaceChar b = true)

/-- Shape of the fragments `re.split(r'(?<=[.!?])\s+', ·)` produces on
normalized non-empty text: non-empty, no whitespace at either end, and
no internal sentence boundary. -/
def SentenceOK (s : List Char) : Prop :=
  s ≠ [] ∧
  (∀ c, s.head? = some c → isSpaceChar c = false) ∧
  (∀ c, s.getLast? = some c → isSpaceChar c = false) ∧
  List.Chain' noBreakR s

/-- A fragment ending in sentence punctuation. -/
def EndsPunct (s : List Char) : Prop :=
  ∃ c, s.getLast? = some c ∧ isPunctChar c = true

lemma punct_not_space {c : Char} (h : isPunctChar c = true) :
    isSpaceChar c = false := by
  unfold isPunctChar at h
  rcases Bool.or_eq_true_iff.mp h with h' | h'
  · rcases Bool.or_eq_true_iff.mp h' with h'' | h'' <;>
      rw [decide_eq_true_iff.mp h''] <;> decide
  · rw [decide_eq_true_iff.mp h']
    decide

lemma getLast?_append_right {l l' : List Char} (h : l' ≠ []) :
    (l ++ l').getLast? = l'.getLast? := by
  rw [List.getLast?_append]
  cases hl : l'.getLast? with
  | none => exact absurd (List.getLast?_eq_none_iff.mp hl) h
  | some a => rfl

lemma joinWS_cons_ne {s : List Char} {l : List (List Char)} (h : l ≠ []) :
    joinWS (s :: l) = s ++ ' ' :: joinWS l := by
  cases l with
  | nil => exact absurd rfl h
  | cons a l' => rfl

lemma dropLast_cons_ne {α : Type} {a : α} {l : List α} (h : l ≠ []) :
    (a :: l).dropLast = a :: l.dropLast := by
  cases l with
  | nil => exact absurd rfl h
  | cons b l' => rfl

lemma joinWS_ne_nil {g : List (List Char)} (hg : g ≠ [])
    (h : ∀ s ∈ g, s ≠ []) : joinWS g ≠ [] := by
  cases g with
  | nil => exact absurd rfl hg
  | cons s g' =>
    cases g' with
    | nil =>
      show joinWS [s] ≠ []
      exact h s (List.mem_cons_self s [])
    | cons s' g'' =>
      show s ++ ' ' :: joinWS (s' :: g'') ≠ []
      simp

lemma joinWS_append_single {g : List (List Char)} (hg : g ≠ [])
    (s : List Char) : joinWS (g ++ [s]) = joinWS g ++ ' ' :: s := by
  induction g with
  | nil => exact absurd rfl hg
  | cons a g' ih =>
    cases g' with
    | nil => rfl
    | cons b g'' =>
      have h1 : joinWS ((a :: b :: g'') ++ [s]) =
          a ++ ' ' :: joinWS ((b :: g'') ++ [s]) := by
        rw [List.cons_append]
        exact joinWS_cons_ne (by simp)
      have h2 : joinWS (a :: b :: g'') = a ++ ' ' :: joinWS (b :: g'') :=
        joinWS_cons_ne (by simp)
      rw [h1, ih (by simp), h2]
      simp

lemma joinWS_head_not {g : List (List Char)} (hok : ∀ s ∈ g, SentenceOK s) :
    ∀ c, (joinWS g).head? = some c → isSpaceChar c = false := by
  induction g with
  | nil => intro c hc; simp [joinWS] at hc
  | cons s g' ih =>
    intro c hc
    have hs := hok s (List.mem_cons_self s g')
    cases g' with
    | nil => exact hs.2.1 c hc
    | cons b g'' =>
      rw [joinWS_cons_ne (by simp), List.head?_append_of_ne_nil _ hs.1] at hc
      exact hs.2.1 c hc

lemma joinWS_getLast_not {g : List (List Char)} (hok : ∀ s ∈ g, SentenceOK s) :
    ∀ c, (joinWS g).getLast? = some c → isSpaceChar c = false := by
  induction g with
  | nil => intro c hc; simp [joinWS] at hc
  | cons s g' ih =>
    intro c hc
    have hs := hok s (List.mem_cons_self s g')
    cases g' with
    | nil => exact hs.2.2.1 c hc
    | cons b g'' =>
      have hne : joinWS (b :: g'') ≠ [] :=
        joinWS_ne_nil (by simp)
          (fun x hx => (hok x (List.mem_cons_of_mem s hx)).1)
      rw [joinWS_cons_ne (by simp),
        getLast?_append_right (l := s) (by simp),
        show (' ' :: joinWS (b :: g'')) = [' '] ++ joinWS (b :: g'') from rfl,
        getLast?_append_right hne] at hc
      exact ih (fun x hx => hok x (List.mem_cons_of_mem s hx)) c hc

lemma sentGo_no_break : ∀ (rest acc : List Char),
    List.Chain' noBreakR (acc.reverse ++ rest) →
    sentGo acc false rest = [acc.reverse ++ rest] := by
  intro rest
  induction rest with
  | nil =>
    intro acc _
    simp [sentGo]
  | cons c cs ih =>
    intro acc hch
    have hcond : (isSpaceChar c && isPunctOpt acc.head?) = false := by
      cases hh : acc.head? with
      | none => simp [isPunctOpt]
      | some a0 =>
        have hlast : acc.reverse.getLast? = some a0 := by
          rw [List.getLast?_reverse]
          exact hh
        have hjunction := (List.chain'_append.mp hch).2.2
        have hnb : noBreakR a0 c := hjunction a0 hlast c rfl
        unfold noBreakR at hnb
        show (isSpaceChar c && isPunctChar a0) = false
        by_contra hcontra
        rw [Bool.not_eq_false, Bool.and_eq_true] at hcontra
        exact hnb ⟨hcontra.2, hcontra.1⟩
    have hstep : sentGo acc false (c :: cs) = sentGo (c :: acc) false cs := by
      simp [sentGo, hcond]
    have hlist : (c :: acc).reverse ++ cs = acc.reverse ++ c :: cs := by
      simp
    rw [hstep, ih (c :: acc) (by rw [hlist]; exact hch), hlist]

lemma sentGo_walk : ∀ (s acc r : List Char),
    List.Chain' noBreakR (acc.reverse ++ s) →
    (∃ p, (acc.reverse ++ s).getLast? = some p ∧ isPunctChar p = true) →
    sentGo acc false (s ++ ' ' :: r) =
      (acc.reverse ++ s) :: sentGo [] true r := by
  intro s
  induction s with
  | nil =>
    intro acc r _ hpunct
    obtain ⟨p, hp, hpp⟩ := hpunct
    rw [List.append_nil] at hp
    have hacc : acc ≠ [] := by
      intro hnil
      rw [hnil] at hp
      simp at hp
    have hhead : acc.head? = some p := by
      rw [← List.getLast?_reverse]
      exact hp
    have hcond : (isSpaceChar ' ' && isPunctOpt acc.head?) = true := by
      rw [hhead]
      show (isSpaceChar ' ' && isPunctChar p) = true
      rw [hpp]
      decide
    show sentGo acc false (' ' :: r) = (acc.reverse ++ []) :: sentGo [] true r
    rw [List.append_nil]
    simp [sentGo, hcond]
  | cons a s' ih =>
    intro acc r hch hpunct
    have hlist : (a :: acc).reverse ++ s' = acc.reverse ++ a :: s' := by
      simp
    have hcond : (isSpaceChar a && isPunctOpt acc.head?) = false := by
      cases hh : acc.head? with
      | none => simp [isPunctOpt]
      | some a0 =>
        have hlast : acc.reverse.getLast? = some a0 := by
          rw [List.getLast?_reverse]
          exact hh
        have hjunction := (List.chain'_append.mp hch).2.2
        have hnb : noBreakR a0 a := hjunction a0 hlast a rfl
        unfold noBreakR at hnb
        show (isSpaceChar a && isPunctChar a0) = false
        by_contra hcontra
        rw [Bool.not_eq_false, Bool.and_eq_true] at hcontra
        exact hnb ⟨hcontra.2, hcontra.1⟩
    have hstep : sentGo acc false ((a :: s') ++ ' ' :: r) =
        sentGo (a :: acc) false (s' ++ ' ' :: r) := by
      simp [sentGo, hcond]
    rw [hstep, ih (a :: acc) r (by rw [hlist]; exact hch)
      (by rw [hlist]; exact hpunct), hlist]

/-- Re-splitting a chunk built from well-formed sentences (all inner
ones ending in punctuation) recovers exactly those sentences. -/
lemma resplit_chunk : ∀ (g : List (List Char)), g ≠ [] →
    (∀ s ∈ g, SentenceOK s) → (∀ s ∈ g.dropLast, EndsPunct s) →
    pySplitSentences (joinWS g) = g := by
  intro g
  induction g with
  | nil => intro h; exact absurd rfl h
  | cons s g' ih =>
    intro _ hok hlast
    have hs := hok s (List.mem_cons_self s g')
    cases g' with
    | nil =>
      show sentGo [] false (joinWS [s]) = [s]
      have : joinWS [s] = s := rfl
      rw [this]
      have h := sentGo_no_break s [] (by simpa using hs.2.2.2)
      simpa using h
    | cons b g'' =>
      have hok' : ∀ x ∈ b :: g'', SentenceOK x :=
        fun x hx => hok x (List.mem_cons_of_mem s hx)
      have hlast' : ∀ x ∈ (b :: g'').dropLast, EndsPunct x := by
        intro x hx
        apply hlast
        rw [dropLast_cons_ne (l := b :: g'') (by simp)]
        exact List.mem_cons_of_mem s hx
      have hIH := ih (by simp) hok' hlast'
      have hne : joinWS (b :: g'') ≠ [] :=
        joinWS_ne_nil (by simp) (fun x hx => (hok' x hx).1)
      obtain ⟨c', v, hjv⟩ : ∃ c' v, joinWS (b :: g'') = c' :: v := by
        cases hj : joinWS (b :: g'') with
        | nil => exact absurd hj hne
        | cons c' v => exact ⟨c', v, rfl⟩
      have hc' : isSpaceChar c' = false := by
        apply joinWS_head_not hok'
        rw [hjv]
        rfl
      have hsp : EndsPunct s := by
        apply hlast
        rw [dropLast_cons_ne (l := b :: g'') (by simp)]
        exact List.mem_cons_self s _
      have hwalk := sentGo_walk s [] (joinWS (b :: g''))
        (by simpa using hs.2.2.2) (by simpa using hsp)
      have hskip : sentGo [] true (joinWS (b :: g'')) =
          sentGo [c'] false v := by
        rw [hjv]
        simp [sentGo, hc']
      have hunfold : sentGo [] false (joinWS (b :: g'')) =
          sentGo [c'] false v := by
        rw [hjv]
        simp [sentGo, isPunctOpt]
      have hIH2 : sentGo [] false (joinWS (b :: g'')) = b :: g'' := hIH
      show sentGo [] false (joinWS (s :: b :: g'')) = s :: b :: g''
      rw [joinWS_cons_ne (by simp), hwalk, hskip, ← hunfold, hIH2]
      simp

lemma sentGo_spec_nil (acc : List Char)
    (h3 : List.Chain' noBreakR acc.reverse)
    (h4 : acc.reverse ≠ [])
    (h5 : ∀ c, acc.reverse.head? = some c → isSpaceChar c = false)
    (h6 : ∀ c, acc.reverse.getLast? = some c → isSpaceChar c = false) :
    sentGo acc false [] ≠ [] ∧
    joinWS (sentGo acc false []) = acc.reverse ++ [] ∧
    (∀ s ∈ sentGo acc false [], SentenceOK s) ∧
    (∀ s ∈ (sentGo acc false []).dropLast, EndsPunct s) := by
  refine ⟨by simp [sentGo], ?_, ?_, ?_⟩
  · show joinWS [acc.reverse] = acc.reverse ++ []
    simp [joinWS]
  · intro s hs
    have hseq : s = acc.reverse := by simpa [sentGo] using hs
    rw [hseq]
    exact ⟨h4, h5, h6, h3⟩
  · intro s hs
    simp [sentGo] at hs

lemma sentGo_spec : ∀ (n : Nat) (rest acc : List Char), rest.length ≤ n →
    (∀ c ∈ rest, isSpaceChar c = true → c = ' ') →
    List.Chain' noAdjWS (acc.reverse ++ rest) →
    List.Chain' noBreakR acc.reverse →
    acc.reverse ++ rest ≠ [] →
    (∀ c, (acc.reverse ++ rest).head? = some c → isSpaceChar c = false) →
    (∀ c, (acc.reverse ++ rest).getLast? = some c → isSpaceChar c = false) →
    sentGo acc false rest ≠ [] ∧
    joinWS (sentGo acc false rest) = acc.reverse ++ rest ∧
    (∀ s ∈ sentGo acc false rest, SentenceOK s) ∧
    (∀ s ∈ (sentGo acc false rest).dropLast, EndsPunct s) := by
  intro n
  induction n with
  | zero =>
    intro rest acc hlen h1 h2 h3 h4 h5 h6
    cases rest with
    | nil =>
      exact sentGo_spec_nil acc h3 (by simpa using h4)
        (fun c hc => h5 c (by simpa using hc))
        (fun c hc => h6 c (by simpa using hc))
    | cons c cs =>
      simp only [List.length_cons] at hlen
      omega
  | succ n ih =>
    intro rest acc hlen h1 h2 h3 h4 h5 h6
    cases rest with
    | nil =>
      exact sentGo_spec_nil acc h3 (by simpa using h4)
        (fun c hc => h5 c (by simpa using hc))
        (fun c hc => h6 c (by simpa using hc))
    | cons c cs =>
      by_cases hsepB : (isSpaceChar c && isPunctOpt acc.head?) = true
      · obtain ⟨hws, hpunct⟩ := Bool.and_eq_true _ _ ▸ hsepB
        cases hh : acc.head? with
        | none =>
          rw [hh] at hpunct
          exact absurd hpunct (by simp [isPunctOpt])
        | some a0 =>
          have hpa0 : isPunctChar a0 = true := by
            rw [hh] at hpunct
            exact hpunct
          have hacc_ne : acc ≠ [] := by
            intro h0
            rw [h0] at hh
            simp at hh
          have haccrev_ne : acc.reverse ≠ [] := by
            simpa [List.reverse_eq_nil_iff] using hacc_ne
          have hlast_acc : acc.reverse.getLast? = some a0 := by
            rw [List.getLast?_reverse]
            exact hh
          have hcsp : c = ' ' := h1 c (List.mem_cons_self c cs) hws
          cases cs with
          | nil =>
            exfalso
            have hgl : (acc.reverse ++ [c]).getLast? = some c :=
              List.getLast?_concat _
            have := h6 c hgl
            rw [hws] at this
            exact absurd this (by simp)
          | cons c' cs' =>
            have hchR : List.Chain' noAdjWS (c :: c' :: cs') :=
              (List.chain'_append.mp h2).2.1
            have hcc' : noAdjWS c c' := (List.chain'_cons.mp hchR).1
            have hc' : isSpaceChar c' = false := by
              unfold noAdjWS at hcc'
              by_contra hx
              rw [Bool.not_eq_false] at hx
              exact hcc' ⟨hws, hx⟩
            have hstep : sentGo acc false (c :: c' :: cs') =
                acc.reverse :: sentGo [c'] false cs' := by
              simp [sentGo, hsepB, hc']
            have hIH := ih cs' [c']
              (by simp only [List.length_cons] at hlen; omega)
              (fun x hx => h1 x
                (List.mem_cons_of_mem _ (List.mem_cons_of_mem _ hx)))
              (by simpa using (List.chain'_cons.mp hchR).2)
              (by simp [List.chain'_singleton])
              (by simp)
              (by
                intro x hx
                simp only [List.reverse_singleton, List.singleton_append,
                  List.head?_cons, Option.some.injEq] at hx
                rw [← hx]
                exact hc')
              (by
                intro x hx
                apply h6
                rw [getLast?_append_right (by simp : c :: c' :: cs' ≠ [])]
                rw [show c :: c' :: cs' = [c] ++ c' :: cs' from rfl,
                  getLast?_append_right (by simp : c' :: cs' ≠ [])]
                simpa using hx)
            obtain ⟨hne', hjoin', hok', hlast'⟩ := hIH
            refine ⟨?_, ?_, ?_, ?_⟩
            · rw [hstep]
              simp
            · rw [hstep, joinWS_cons_ne hne', hjoin']
              simp [hcsp]
            · intro s hs
              rw [hstep] at hs
              rcases List.mem_cons.mp hs with hseq | hs'
              · rw [hseq]
                refine ⟨haccrev_ne, ?_, ?_, h3⟩
                · intro x hx
                  apply h5
                  rw [List.head?_append_of_ne_nil _ haccrev_ne]
                  exact hx
                · intro x hx
                  rw [hlast_acc] at hx
                  have : a0 = x := by simpa using hx
                  rw [← this]
                  exact punct_not_space hpa0
              · exact hok' s hs'
            · intro s hs
              rw [hstep, dropLast_cons_ne hne'] at hs
              rcases List.mem_cons.mp hs with hseq | hs'
              · rw [hseq]
                exact ⟨a0, hlast_acc, hpa0⟩
              · exact hlast' s hs'
      · have hsepF : (isSpaceChar c && isPunctOpt acc.head?) = false := by
          revert hsepB
          cases isSpaceChar c && isPunctOpt acc.head? <;> simp
        have hstep : sentGo acc false (c :: cs) = sentGo (c :: acc) false cs := by
          simp [sentGo, hsepF]
        have hlist : (c :: acc).reverse ++ cs = acc.reverse ++ c :: cs := by
          simp
        have h3' : List.Chain' noBreakR (c :: acc).reverse := by
          rw [List.reverse_cons]
          apply List.chain'_append.mpr
          refine ⟨h3, List.chain'_singleton c, ?_⟩
          intro x hx y hy
          have hy' : c = y := by simpa using hy
          have hx' : acc.head? = some x := by
            rw [← List.getLast?_reverse]
            exact Option.mem_def.mp hx
          subst hy'
          unfold noBreakR
          rintro ⟨hpx, hwc⟩
          rw [hx'] at hsepF
          simp [isPunctOpt, hpx, hwc] at hsepF
        have hIH := ih cs (c :: acc)
          (by simp only [List.length_cons] at hlen; omega)
          (fun x hx => h1 x (List.mem_cons_of_mem _ hx))
          (by rw [hlist]; exact h2)
          h3'
          (by rw [hlist]; exact h4)
          (by intro x hx; rw [hlist] at hx; exact h5 x hx)
          (by intro x hx; rw [hlist] at hx; exact h6 x hx)
        obtain ⟨hne', hjoin', hok', hlast'⟩ := hIH
        rw [hstep]
        refine ⟨hne', ?_, hok', hlast'⟩
        rw [hjoin', hlist]

/-- Normalized text satisfies the `NF` shape. -/
lemma NF_of_fixed {t : List Char} (h : clean_text t = t) : NF t :=
  h ▸ NF_clean_text t

/-- On normalized non-empty text the sentence splitter loses nothing:
the fragments are non-empty, well-shaped, rejoin to the input with
single spaces, and all but the last end in punctuation. -/
lemma pySplitSentences_spec {t : List Char} (hnf : NF t) (hne : t ≠ []) :
    pySplitSentences t ≠ [] ∧
    joinWS (pySplitSentences t) = t ∧
    (∀ s ∈ pySplitSentences t, SentenceOK s) ∧
    (∀ s ∈ (pySplitSentences t).dropLast, EndsPunct s) := by
  obtain ⟨h1, h2, h3, h4⟩ := hnf
  exact sentGo_spec t.length t [] (le_refl _) h1 h2 List.chain'_nil hne h3 h4

lemma sectionStep_empty (T : Nat) (secs : List (List Char)) (s : List Char) :
    sectionStep T (secs, []) s = (secs, s) := by
  simp [sectionStep]

lemma sectionStep_fits (T : Nat) (secs : List (List Char)) (cur s : List Char)
    (hcur : cur ≠ []) (hfit : ¬(cur.length + s.length + 1 > T)) :
    sectionStep T (secs, cur) s = (secs, cur ++ ' ' :: s) := by
  simp [sectionStep, hcur, hfit]

lemma sectionStep_close (T : Nat) (secs : List (List Char)) (cur s : List Char)
    (hcur : cur ≠ []) (hgt : cur.length + s.length + 1 > T)
    (hle : cur.length + s.length + 1 ≤ max_chars) :
    sectionStep T (secs, cur) s = (secs ++ [pyStrip (cur ++ ' ' :: s)], []) := by
  simp [sectionStep, hcur, hgt, hle]

lemma sectionStep_defer (T : Nat) (secs : List (List Char)) (cur s : List Char)
    (hcur : cur ≠ []) (hgt : cur.length + s.length + 1 > T)
    (hgt2 : ¬(cur.length + s.length + 1 ≤ max_chars)) :
    sectionStep T (secs, cur) s = (secs ++ [pyStrip cur], s) := by
  simp [sectionStep, hcur, hgt, hgt2]

/-- Invariant of the accumulation loop: starting from a buffer holding
the sentence group `g0`, the fold emits stripped space-joins of
consecutive non-empty sentence groups and leaves a final buffer group;
the groups concatenate, in order, to the processed sentence list. -/
lemma fold_groups (T : Nat) :
    ∀ (ss secs : List (List Char)) (g0 : List (List Char)),
    (∀ s ∈ g0, s ≠ []) → (∀ s ∈ ss, s ≠ []) →
    (g0.length = 1 ∨ (joinWS g0).length ≤ T) →
    ∃ (gs : List (List (List Char))) (g' : List (List Char)),
      ss.foldl (sectionStep T) (secs, joinWS g0) =
        (secs ++ gs.map (fun g => pyStrip (joinWS g)), joinWS g') ∧
      gs.flatten ++ g' = g0 ++ ss ∧
      (∀ g ∈ gs, g ≠ [] ∧
        ((joinWS g).length ≤ max T max_chars ∨ ∃ s, g = [s])) ∧
      (∀ s ∈ g', s ≠ []) ∧
      (g'.length = 1 ∨ (joinWS g').length ≤ T) := by
  intro ss
  induction ss with
  | nil =>
    intro secs g0 hg0 _ hsize
    exact ⟨[], g0, by simp, by simp, by simp, hg0, hsize⟩
  | cons s ss' ih =>
    intro secs g0 hg0 hss hsize
    have hs_ne : s ≠ [] := hss s (List.mem_cons_self s ss')
    have hss' : ∀ x ∈ ss', x ≠ [] :=
      fun x hx => hss x (List.mem_cons_of_mem s hx)
    by_cases hg0nil : g0 = []
    · subst hg0nil
      have hj0 : joinWS ([] : List (List Char)) = [] := rfl
      have hj1 : joinWS [s] = s := rfl
      have hfold : (s :: ss').foldl (sectionStep T) (secs, joinWS ([] : List (List Char))) =
          ss'.foldl (sectionStep T) (secs, joinWS [s]) := by
        rw [List.foldl_cons, hj0, sectionStep_empty, hj1]
      obtain ⟨gs, g', ha, hb, hc, hd, he⟩ := ih secs [s]
        (by simpa using hs_ne) hss' (Or.inl rfl)
      exact ⟨gs, g', by rw [hfold]; exact ha, by simpa using hb, hc, hd, he⟩
    · have hcur_ne : joinWS g0 ≠ [] := joinWS_ne_nil hg0nil hg0
      have hjapp : joinWS (g0 ++ [s]) = joinWS g0 ++ ' ' :: s :=
        joinWS_append_single hg0nil s
      have hlenapp : (joinWS (g0 ++ [s])).length =
          (joinWS g0).length + s.length + 1 := by
        rw [hjapp]
        simp only [List.length_append, List.length_cons]
        omega
      by_cases hgtT : (joinWS g0).length + s.length + 1 > T
      · by_cases hle : (joinWS g0).length + s.length + 1 ≤ max_chars
        · have hfold : (s :: ss').foldl (sectionStep T) (secs, joinWS g0) =
              ss'.foldl (sectionStep T)
                (secs ++ [pyStrip (joinWS (g0 ++ [s]))],
                 joinWS ([] : List (List Char))) := by
            rw [List.foldl_cons, sectionStep_close T secs _ s hcur_ne hgtT hle,
              hjapp]
            rfl
          obtain ⟨gs, g', ha, hb, hc, hd, he⟩ :=
            ih (secs ++ [pyStrip (joinWS (g0 ++ [s]))]) []
              (by simp) hss' (Or.inr (by simp [joinWS]))
          refine ⟨(g0 ++ [s]) :: gs, g', ?_, ?_, ?_, hd, he⟩
          · rw [hfold, ha]
            simp
          · have hb' : gs.flatten ++ g' = ss' := by simpa using hb
            rw [List.flatten_cons, List.append_assoc, hb']
            simp
          · intro g hg
            rcases List.mem_cons.mp hg with hgeq | hg'
            · subst hgeq
              refine ⟨by simp, Or.inl ?_⟩
              rw [hlenapp]
              exact le_trans hle (le_max_right T max_chars)
            · exact hc g hg'
        · have hfold : (s :: ss').foldl (sectionStep T) (secs, joinWS g0) =
              ss'.foldl (sectionStep T)
                (secs ++ [pyStrip (joinWS g0)], joinWS [s]) := by
            rw [List.foldl_cons, sectionStep_defer T secs _ s hcur_ne hgtT hle]
            rfl
          obtain ⟨gs, g', ha, hb, hc, hd, he⟩ :=
            ih (secs ++ [pyStrip (joinWS g0)]) [s]
              (by simpa using hs_ne) hss' (Or.inl rfl)
          refine ⟨g0 :: gs, g', ?_, ?_, ?_, hd, he⟩
          · rw [hfold, ha]
            simp
          · rw [List.flatten_cons, List.append_assoc, hb]
            simp
          · intro g hg
            rcases List.mem_cons.mp hg with hgeq | hg'
            · subst hgeq
              refine ⟨hg0nil, ?_⟩
              rcases hsize with h1s | h2s
              · exact Or.inr (List.length_eq_one.mp h1s)
              · exact Or.inl (le_trans h2s (le_max_left T max_chars))
            · exact hc g hg'
      · have hfold : (s :: ss').foldl (sectionStep T) (secs, joinWS g0) =
            ss'.foldl (sectionStep T) (secs, joinWS (g0 ++ [s])) := by
          rw [List.foldl_cons, sectionStep_fits T secs _ s hcur_ne hgtT, ← hjapp]
        obtain ⟨gs, g', ha, hb, hc, hd, he⟩ :=
          ih secs (g0 ++ [s])
            (by
              intro x hx
              rcases List.mem_append.mp hx with h | h
              · exact hg0 x h
              · rw [List.mem_singleton.mp h]
                exact hs_ne)
            hss'
            (Or.inr (by rw [hlenapp]; omega))
        refine ⟨gs, g', by rw [hfold]; exact ha, ?_, hc, hd, he⟩
        rw [hb, List.append_assoc]
        simp

lemma dropLast_sub_of_decomp {α : Type} {S preL postL g : List α}
    (hS : S = preL ++ g ++ postL) (hg : g ≠ []) :
    ∀ x ∈ g.dropLast, x ∈ S.dropLast := by
  intro x hx
  cases hpost : postL with
  | nil =>
    rw [hS, hpost, List.append_nil, List.dropLast_append_of_ne_nil _ hg]
    exact List.mem_append_right _ hx
  | cons p ps =>
    rw [hS, hpost, List.dropLast_append_of_ne_nil _ (by simp : p :: ps ≠ [])]
    exact List.mem_append_left _
      (List.mem_append_right _ ((List.dropLast_sublist g).subset hx))

/-- The fold of `split_text_into_sections`, described as stripped
space-joins of an ordered partition of the sentence list into
non-empty groups. -/
lemma split_sections_raw (T : Nat) (t : List Char)
    (hfix : clean_text t = t) (hne : t ≠ []) :
    ∃ gs : List (List (List Char)),
      gs.flatten = pySplitSentences t ∧
      split_text_into_sections t T = gs.map (fun g => pyStrip (joinWS g)) ∧
      (∀ g ∈ gs, g ≠ []) ∧
      (∀ g ∈ gs, (joinWS g).length ≤ max T max_chars ∨ ∃ s, g = [s]) := by
  obtain ⟨hSne, hSjoin, hSok, hSlast⟩ :=
    pySplitSentences_spec (NF_of_fixed hfix) hne
  have hSne' : ∀ s ∈ pySplitSentences t, s ≠ [] := fun s hs => (hSok s hs).1
  obtain ⟨gs0, g', ha, hb, hc, hd, he⟩ :=
    fold_groups T (pySplitSentences t) [] [] (by simp) hSne'
      (Or.inr (by simp [joinWS]))
  have ha' : (pySplitSentences t).foldl (sectionStep T) ([], []) =
      ([] ++ gs0.map (fun g => pyStrip (joinWS g)), joinWS g') := ha
  have hsplit : split_text_into_sections t T =
      (if joinWS g' = [] then gs0.map (fun g => pyStrip (joinWS g))
       else gs0.map (fun g => pyStrip (joinWS g)) ++ [pyStrip (joinWS g')]) := by
    simp only [split_text_into_sections]
    rw [ha']
    simp
  by_cases hg'nil : g' = []
  · subst hg'nil
    have hj0 : joinWS ([] : List (List Char)) = [] := rfl
    refine ⟨gs0, by simpa using hb, ?_, fun g hg => (hc g hg).1,
      fun g hg => (hc g hg).2⟩
    rw [hsplit, hj0, if_pos rfl]
  · have hjne : joinWS g' ≠ [] := joinWS_ne_nil hg'nil hd
    refine ⟨gs0 ++ [g'], ?_, ?_, ?_, ?_⟩
    · rw [List.flatten_append]
      simpa using hb
    · rw [hsplit, if_neg hjne, List.map_append]
      rfl
    · intro g hg
      rcases List.mem_append.mp hg with hg | hg
      · exact (hc g hg).1
      · rw [List.mem_singleton.mp hg]
        exact hg'nil
    · intro g hg
      rcases List.mem_append.mp hg with hg | hg
      · exact (hc g hg).2
      · rw [List.mem_singleton.mp hg]
        rcases he with h1 | h2
        · exact Or.inr (List.length_eq_one.mp h1)
        · exact Or.inl (le_trans h2 (le_max_left T max_chars))

/-- Structure of `split_text_into_sections` on normalized non-empty
text: the chunks are the space-joins of an ordered partition of the
sentence sequence into non-empty groups; every group either joins to at
most `max T 4096` characters or is a single sentence of the input; and
re-splitting any chunk recovers exactly its group of sentences. -/
lemma split_sections_structure (T : Nat) (t : List Char)
    (hfix : clean_text t = t) (hne : t ≠ []) :
    ∃ gs : List (List (List Char)),
      gs.flatten = pySplitSentences t ∧
      split_text_into_sections t T = gs.map joinWS ∧
      (∀ g ∈ gs, g ≠ [] ∧ ∀ s ∈ g, s ≠ []) ∧
      (∀ g ∈ gs, (joinWS g).length ≤ max T max_chars ∨
        ∃ s, g = [s] ∧ s ∈ pySplitSentences t) ∧
      (∀ g ∈ gs, pySplitSentences (joinWS g) = g) := by
  obtain ⟨hSne, hSjoin, hSok, hSlast⟩ :=
    pySplitSentences_spec (NF_of_fixed hfix) hne
  obtain ⟨gs, hflat, hchunks, hgne, hgsize⟩ := split_sections_raw T t hfix hne
  have hmem : ∀ g ∈ gs, ∀ s ∈ g, s ∈ pySplitSentences t := by
    intro g hg s hs
    rw [← hflat]
    exact List.mem_flatten.mpr ⟨g, hg, hs⟩
  have hok : ∀ g ∈ gs, ∀ s ∈ g, SentenceOK s :=
    fun g hg s hs => hSok s (hmem g hg s hs)
  have hstrip : ∀ g ∈ gs, pyStrip (joinWS g) = joinWS g := by
    intro g hg
    exact pyStrip_eq_self _ (joinWS_head_not (hok g hg))
      (joinWS_getLast_not (hok g hg))
  have hchunks' : split_text_into_sections t T = gs.map joinWS := by
    rw [hchunks]
    exact List.map_congr_left (fun g hg => hstrip g hg)
  have hresplit : ∀ g ∈ gs, pySplitSentences (joinWS g) = g := by
    intro g hg
    obtain ⟨pre, post, hdecomp⟩ := List.append_of_mem hg
    have hSdecomp : pySplitSentences t =
        pre.flatten ++ g ++ post.flatten := by
      rw [← hflat, hdecomp]
      simp [List.flatten_append, List.flatten_cons, List.append_assoc]
    exact resplit_chunk g (hgne g hg) (hok g hg)
      (fun s hs => hSlast s (dropLast_sub_of_decomp hSdecomp (hgne g hg) s hs))
  refine ⟨gs, hflat, hchunks', ?_, ?_, hresplit⟩
  · intro g hg
    exact ⟨hgne g hg, fun s hs => (hSok s (hmem g hg s hs)).1⟩
  · intro g hg
    rcases hgsize g hg with h | ⟨s, hseq⟩
    · exact Or.inl h
    · exact Or.inr ⟨s, hseq, hmem g hg s (by rw [hseq]; exact List.mem_singleton.mpr rfl)⟩

/-- Splitting the empty text yields no chunks. -/
lemma split_nil (T : Nat) : split_text_into_sections [] T = [] := by
  have h2 : (pySplitSentences ([] : List Char)).foldl (sectionStep T) ([], []) =
      ([], []) := by
    show ([[]] : List (List Char)).foldl (sectionStep T) ([], []) = ([], [])
    rw [List.foldl_cons, sectionStep_empty, List.foldl_nil]
  simp only [split_text_into_sections]
  rw [h2]
  simp

lemma joinWS_append {a b : List (List Char)} (ha : a ≠ []) (hb : b ≠ []) :
    joinWS (a ++ b) = joinWS a ++ ' ' :: joinWS b := by
  induction a with
  | nil => exact absurd rfl ha
  | cons x a' ih =>
    cases a' with
    | nil =>
      rw [List.singleton_append, joinWS_cons_ne hb]
      rfl
    | cons y a'' =>
      have h1 : (x :: y :: a'') ++ b = x :: ((y :: a'') ++ b) := rfl
      rw [h1, joinWS_cons_ne (by simp), ih (by simp),
        joinWS_cons_ne (show (y : List Char) :: a'' ≠ [] by simp)]
      simp

lemma flatten_ne_nil {gs : List (List (List Char))} (hgs : gs ≠ [])
    (h : ∀ g ∈ gs, g ≠ []) : gs.flatten ≠ [] := by
  cases gs with
  | nil => exact absurd rfl hgs
  | cons b rest =>
    rw [List.flatten_cons]
    have hb : b ≠ [] := h b (List.mem_cons_self b rest)
    cases b with
    | nil => exact absurd rfl hb
    | cons x xs => simp

lemma joinWS_flatten {gs : List (List (List Char))}
    (h : ∀ g ∈ gs, g ≠ []) :
    joinWS (gs.map joinWS) = joinWS gs.flatten := by
  induction gs with
  | nil => rfl
  | cons g gs' ih =>
    cases gs' with
    | nil =>
      show joinWS [joinWS g] = joinWS (g ++ [].flatten)
      simp [joinWS]
    | cons g2 gs'' =>
      have hg : g ≠ [] := h g (List.mem_cons_self g _)
      have h' : ∀ x ∈ g2 :: gs'', x ≠ [] :=
        fun x hx => h x (List.mem_cons_of_mem g hx)
      have hflat_ne : (g2 :: gs'').flatten ≠ [] :=
        flatten_ne_nil (by simp) h'
      rw [List.map_cons, joinWS_cons_ne (by simp), ih h']
      rw [show (g :: g2 :: gs'').flatten = g ++ (g2 :: gs'').flatten from
        List.flatten_cons]
      rw [joinWS_append hg hflat_ne]

/-- Claim C1: re-splitting each chunk on the sentence rule and
concatenating, in chunk order, reproduces exactly the sentence sequence
of the whole normalized input — no sentence lost, duplicated or
reordered, and every sentence lands in exactly one chunk. -/
theorem claim_C1_sentence_coverage (T : Nat) (t : List Char)
    (h : clean_text t = t) :
    ((split_text_into_sections t T).map pySplitSentences).flatten =
      sentenceSeq t := by
  by_cases hne : t = []
  · subst hne
    rw [split_nil]
    rfl
  · obtain ⟨gs, hflat, hchunks, _, _, hresplit⟩ :=
      split_sections_structure T t h hne
    rw [hchunks, List.map_map]
    have hmapid : gs.map (pySplitSentences ∘ joinWS) = gs.map id :=
      List.map_congr_left (fun g hg => hresplit g hg)
    rw [hmapid, List.map_id, hflat]
    unfold sentenceSeq
    rw [if_neg hne]

/-- Normalized text used by several witnesses. -/
def wText : List Char := "a. b".data

/-- Witness for claim C1 on the normalized text `"a. b"`. -/
theorem claim_C1_witness :
    clean_text wText = wText ∧
    ((split_text_into_sections wText 4090).map pySplitSentences).flatten =
      sentenceSeq wText :=
  ⟨by decide, claim_C1_sentence_coverage 4090 wText (by decide)⟩

/-- Claim C2: with the default soft target 4090 every chunk fits in the
4096 hard cap, except a chunk that is a single input sentence whose own
length exceeds 4096, emitted alone and unsplit. -/
theorem claim_C2_size_bound (t : List Char) (h : clean_text t = t) :
    ∀ c ∈ split_text_into_sections t 4090,
      c.length ≤ 4096 ∨ (c ∈ sentenceSeq t ∧ 4096 < c.length) := by
  intro c hc
  by_cases hne : t = []
  · subst hne
    rw [split_nil] at hc
    simp at hc
  · obtain ⟨gs, hflat, hchunks, _, hsize, _⟩ :=
      split_sections_structure 4090 t h hne
    rw [hchunks] at hc
    obtain ⟨g, hg, hgc⟩ := List.mem_map.mp hc
    rcases hsize g hg with hle | ⟨s, hgeq, hsmem⟩
    · left
      have hmax : max 4090 max_chars = 4096 := by decide
      rw [← hgc]
      omega
    · by_cases hlen : c.length ≤ 4096
      · exact Or.inl hlen
      · right
        refine ⟨?_, by omega⟩
        have hcs : c = s := by
          rw [← hgc, hgeq]
          rfl
        rw [hcs]
        unfold sentenceSeq
        rw [if_neg hne]
        exact hsmem

/-- Witness for claim C2 on the normalized text `"a. b"`. -/
theorem claim_C2_witness :
    clean_text wText = wText ∧
    (wText.length ≤ 4096 ∨ (wText ∈ sentenceSeq wText ∧ 4096 < wText.length)) :=
  ⟨by decide, claim_C2_size_bound wText (by decide) wText (by decide)⟩

/-- Claim C5: the empty text yields zero chunks, and on non-empty
normalized text no chunk has length 0. -/
theorem claim_C5_no_empty_chunks (T : Nat) (t : List Char)
    (h : clean_text t = t) :
    split_text_into_sections [] T = [] ∧
    ∀ c ∈ split_text_into_sections t T, 0 < c.length := by
  refine ⟨split_nil T, ?_⟩
  intro c hc
  by_cases hne : t = []
  · subst hne
    rw [split_nil] at hc
    simp at hc
  · obtain ⟨gs, _, hchunks, hprops, _, _⟩ :=
      split_sections_structure T t h hne
    rw [hchunks] at hc
    obtain ⟨g, hg, hgc⟩ := List.mem_map.mp hc
    have hcne : c ≠ [] := by
      rw [← hgc]
      exact joinWS_ne_nil (hprops g hg).1 (hprops g hg).2
    exact List.length_pos.mpr hcne

/-- Witness for claim C5 on the normalized text `"a. b"`. -/
theorem claim_C5_witness :
    clean_text wText = wText ∧
    split_text_into_sections [] 4090 = [] ∧ 0 < wText.length :=
  ⟨by decide, (claim_C5_no_empty_chunks 4090 wText (by decide)).1,
    (claim_C5_no_empty_chunks 4090 wText (by decide)).2 wText (by decide)⟩

/-- Claim C10: joining the chunks with single spaces reproduces the
normalized non-empty input exactly, for every soft target. -/
theorem claim_C10_round_trip (T : Nat) (t : List Char)
    (h : clean_text t = t) (hne : t ≠ []) :
    joinWS (split_text_into_sections t T) = t := by
  obtain ⟨_, hSjoin, _, _⟩ := pySplitSentences_spec (NF_of_fixed h) hne
  obtain ⟨gs, hflat, hchunks, hprops, _, _⟩ :=
    split_sections_structure T t h hne
  rw [hchunks, joinWS_flatten (fun g hg => (hprops g hg).1), hflat, hSjoin]

/-- Witness for claim C10 on the normalized text `"a. b"`. -/
theorem claim_C10_witness :
    clean_text wText = wText ∧ wText ≠ [] ∧
    joinWS (split_text_into_sections wText 4090) = wText :=
  ⟨by decide, by decide, claim_C10_round_trip 4090 wText (by decide) (by decide)⟩

end PdfSplitter
